import Mathlib

/-!
Shallow embedding of the cuvva/ksuid-go library (package `ksuid`),
covering the base-62 codec (`base62.go`), identifier values and their
textual codec (`id.go`), the generator node (`node.go`), the instance
identity variants (`instance_id.go`) and the identifier set (`set.go`).

Byte strings are modelled as `List Nat` (each entry a byte value),
machine integers as `Nat`/`Int` with explicit `% 2^w` where Go wraps.
-/

set_option maxRecDepth 16000

namespace Ksuid

/-- Positional value of a digit list in the given base, most significant
digit first (`foldl (a*base + c)` exactly mirrors accumulating reads). -/
def valBase (base : Nat) (l : List Nat) : Nat :=
  l.foldl (fun a c => a * base + c) 0

/-- Big-endian digits of `v` in the given base, fixed width `k`.
For `v < base^k` this is the canonical left-zero-padded representation. -/
def toDigitsBE (base : Nat) : Nat → Nat → List Nat
  | 0, _ => []
  | k + 1, v => toDigitsBE base k (v / base) ++ [v % base]

/-- `base62Value` from `base62.go`: maps a byte to its base-62 digit.
The default branch is Go byte arithmetic `offsetLowercase + (digit - 'a')`,
which wraps modulo 256 for bytes below `'a'`. -/
def base62Value (c : Nat) : Nat :=
  if 48 ≤ c ∧ c ≤ 57 then c - 48
  else if 65 ≤ c ∧ c ≤ 90 then 10 + (c - 65)
  else (36 + ((c + 256 - 97) % 256)) % 256

/-- Character of a base-62 digit, per the `base62Characters` alphabet
(`'0'..'9'`, `'A'..'Z'`, `'a'..'z'`). -/
def base62Char (d : Nat) : Nat :=
  if d < 10 then 48 + d
  else if d < 36 then 65 + (d - 10)
  else 97 + (d - 36)

/-- A byte is in the base-62 alphabet. -/
def IsBase62Char (c : Nat) : Prop :=
  (48 ≤ c ∧ c ≤ 57) ∨ (65 ≤ c ∧ c ≤ 90) ∨ (97 ≤ c ∧ c ≤ 122)

instance (c : Nat) : Decidable (IsBase62Char c) := by
  unfold IsBase62Char; infer_instance

/-- `ParseError` from `id.go`. -/
structure ParseError where
  errorString : String
deriving DecidableEq, Repr

/-- The body of the inner loop of `fastDecodeBase62`: state is the
quotient digit string built so far and the running remainder; one base-62
digit `c` is consumed (`value := c + remainder*srcBase`), one quotient
digit emitted unless it would be a leading zero. -/
def divStepF (qr : List Nat × Nat) (c : Nat) : List Nat × Nat :=
  let value := c + qr.2 * 62
  let digit := value / 4294967296
  let remainder := value % 4294967296
  if qr.1 ≠ [] ∨ digit ≠ 0 then (qr.1 ++ [digit], remainder)
  else (qr.1, remainder)

/-- One pass of the inner loop of `fastDecodeBase62`: long division of the
base-62 digit string `bp` by `2^32`, returning the quotient digit string
(leading zeros stripped, exactly as the Go `append` condition does) and
the remainder. -/
def divStep (bp : List Nat) : List Nat × Nat :=
  bp.foldl divStepF ([], 0)

/-- The 4 bytes Go writes per chunk: `byte(r>>24), byte(r>>16), byte(r>>8), byte(r)`. -/
def chunk4 (r : Nat) : List Nat :=
  [r / 2 ^ 24 % 256, r / 2 ^ 16 % 256, r / 2 ^ 8 % 256, r % 256]

/-- The outer loop of `fastDecodeBase62`: repeatedly divide by `2^32`,
writing each 4-byte chunk in front of the previously written ones
(Go writes at `dst[n-4..n-1]` and decrements `n`); when the digit string
is exhausted the remaining `n` leading bytes are zero-filled.  Fails with
the `output buffer too short` error when a chunk is produced with fewer
than 4 output bytes remaining. -/
def decodeChunks : List Nat → Nat → List Nat → Except ParseError (List Nat)
  | bp, n, acc =>
    if bp.isEmpty then .ok (List.replicate n 0 ++ acc)
    else
      match n with
      | n' + 4 => decodeChunks (divStep bp).1 n' (chunk4 (divStep bp).2 ++ acc)
      | _ => .error ⟨"output buffer too short"⟩

/-- `fastDecodeBase62` from `base62.go`, specialised (as in the source) to
a 21-byte output buffer; `src` is the 29-character input. -/
def fastDecodeBase62 (src : List Nat) : Except ParseError (List Nat) :=
  decodeChunks (src.map base62Value) 21 []

/-- Modelled from the spec: the base-62 `Encode` of §4.1 — the external
encoder `github.com/jamescun/basex` is not part of this repository — as
the canonical big-endian base conversion of the 21-byte payload value,
left-padded with `'0'` to the fixed 29-character width. -/
def encodeBase62 (b : List Nat) : List Nat :=
  (toDigitsBE 62 29 (valBase 256 b)).map base62Char

/-- Modelled from the spec: the 27-character base-62 body that
`ID.Bytes` places after the literal `"00"` spacer (§4.3: the 2-character
spacer plus the body make up the fixed 29-character encoded length); the
external `basex` encoder is not part of this repository, and this is the
canonical right-aligned base-62 form pinned by the repository's own
`TestID/Bytes` vectors.  The `% 62^27` makes the definition total; every
encodable payload value lies below `2^160 < 62^27`. -/
def encodeBody27 (x : List Nat) : List Nat :=
  (toDigitsBE 62 27 (valBase 256 x % 62 ^ 27)).map base62Char

/-- A Go `time.Time` instant as used by this library: whole seconds since
the Unix epoch, a sub-second nanosecond component, and whether the value
has been normalized to the UTC location.  `Time.Equal` compares only the
instant (`sec`, `nsec`); Go struct equality compares everything. -/
structure Instant where
  sec : Int
  nsec : Int
  isUTC : Bool
deriving DecidableEq, Repr

/-- `time.Time.Sub` in nanoseconds (exact; Go saturates at ±2^63-1 ns,
which cannot change the sign of a comparison against the 1-second
threshold used by `Node.Generate`). -/
def instantSub (a b : Instant) : Int :=
  (a.sec - b.sec) * 1000000000 + (a.nsec - b.nsec)

/-- `time.Time.Equal`: instant comparison, location-insensitive. -/
def instantEqual (a b : Instant) : Bool :=
  a.sec == b.sec && a.nsec == b.nsec

/-- `time.Time.UTC()`: same instant, normalized location. -/
def Instant.utc (t : Instant) : Instant :=
  { t with isUTC := true }

/-- `time.Unix(sec, 0).UTC()` as built by `Parse`. -/
def instantOfUnix (sec : Int) : Instant :=
  ⟨sec, 0, true⟩

/-- The `InstanceID` interface of `instance_id.go`, closed over its three
implementers.  `hardware` stores a `net.HardwareAddr` (a byte slice of
any length) and a `uint16` process id; `docker` and `random` store byte
lists (8 bytes when built by their parsers). -/
inductive InstanceKind where
  | hardware (machineID : List Nat) (processID : Nat)
  | docker (containerID : List Nat)
  | random (random : List Nat)
deriving DecidableEq, Repr

/-- `copy(b[:n], l)` into a zeroed `n`-byte array. -/
def padCopy (n : Nat) (l : List Nat) : List Nat :=
  l.take n ++ List.replicate (n - l.length) 0

/-- The `Scheme()` byte of each variant: `'H'`, `'D'`, `'R'`. -/
def InstanceKind.scheme : InstanceKind → Nat
  | .hardware _ _ => 72
  | .docker _ => 68
  | .random _ => 82

/-- The `Bytes()` `[8]byte` fingerprint of each variant.  Hardware:
`copy(b[:], MachineID)` then big-endian `ProcessID` at bytes 6–7;
docker/random: `copy(b[:], ...)` of the stored bytes. -/
def InstanceKind.bytes : InstanceKind → List Nat
  | .hardware mac pid => padCopy 6 mac ++ [pid / 256 % 256, pid % 256]
  | .docker cid => padCopy 8 cid
  | .random r => padCopy 8 r

/-- `ParseHardwareID`: requires 8 bytes; first 6 are the address, last 2
the big-endian process id. -/
def ParseHardwareID (b : List Nat) : Except ParseError InstanceKind :=
  if b.length ≠ 8 then .error ⟨"expected 8 bytes"⟩
  else .ok (.hardware (b.take 6) ((b.drop 6).headI * 256 + (b.drop 7).headI))

/-- `ParseDockerID`: requires 8 bytes, stored opaquely. -/
def ParseDockerID (b : List Nat) : Except ParseError InstanceKind :=
  if b.length ≠ 8 then .error ⟨"expected 8 bytes"⟩ else .ok (.docker b)

/-- `ParseRandomID`: requires 8 bytes, stored opaquely. -/
def ParseRandomID (b : List Nat) : Except ParseError InstanceKind :=
  if b.length ≠ 8 then .error ⟨"expected 8 bytes"⟩ else .ok (.random b)

/-- `ParseInstanceID` from `instance_id.go`: a 9-byte buffer, dispatched
on the leading scheme byte; unknown tags fail.  (Go reports these
failures through plain `fmt.Errorf` values; the message strings are kept
abridged here, which no claim depends on.) -/
def ParseInstanceID (b : List Nat) : Except ParseError InstanceKind :=
  if b.length ≠ 9 then .error ⟨"expected 9 bytes"⟩
  else if b.headI = 72 then ParseHardwareID (b.drop 1)
  else if b.headI = 68 then ParseDockerID (b.drop 1)
  else if b.headI = 82 then ParseRandomID (b.drop 1)
  else .error ⟨"unknown node id"⟩

/-- The `ID` struct of `id.go`.  `InstanceID` is a Go interface value;
`none` models the nil interface.  `SequenceID` is a `uint32`, kept as a
`Nat` with explicit `% 2^32` wherever Go truncates. -/
structure ID where
  Environment : List Nat
  Resource : List Nat
  Timestamp : Instant
  InstanceID : Option InstanceKind
  SequenceID : Nat
deriving DecidableEq, Repr

/-- The `Production` sentinel `"prod"` as bytes. -/
def Production : List Nat := [112, 114, 111, 100]

/-- `bytes.IndexByte`: index of the first occurrence, if any. -/
def indexByte (s : List Nat) (c : Nat) : Option Nat :=
  match s with
  | [] => none
  | a :: rest => if a = c then some 0 else (indexByte rest c).map (· + 1)

/-- `bytes.LastIndexByte`: index of the last occurrence, if any. -/
def lastIndexByte (s : List Nat) (c : Nat) : Option Nat :=
  match s with
  | [] => none
  | a :: rest =>
    match lastIndexByte rest c with
    | some i => some (i + 1)
    | none => if a = c then some 0 else none

/-- `splitPrefixID` from `id.go`: split at the last `'_'` (byte 95) into
raw prefix and id body; a `'_'` inside the raw prefix further splits it
at its first `'_'` into environment and resource, otherwise the whole
raw prefix is the resource. -/
def splitPrefixID (s : List Nat) : List Nat × List Nat × List Nat :=
  match lastIndexByte s 95 with
  | none => ([], [], s)
  | some i =>
    match indexByte (s.take i) 95 with
    | some j => (s.take j, (s.take i).drop (j + 1), s.drop (i + 1))
    | none => ([], s.take i, s.drop (i + 1))

/-- `uint64` reinterpretation of an `int64` (two's complement). -/
def toUInt64OfInt (i : Int) : Nat :=
  (i % 2 ^ 64).toNat

/-- `int64` reinterpretation of a `uint64`. -/
def toIntOfUInt64 (u : Nat) : Int :=
  if u < 2 ^ 63 then (u : Int) else (u : Int) - 2 ^ 64

/-- `Parse` from `id.go`: split the prefix, default the environment to
`Production` when empty, enforce the 29-byte body length, run the
base-62 decoder, and unpack the 21-byte payload
(`[0:8)` timestamp, `[8:17)` instance id, `[17:21)` sequence). -/
def Parse (src : List Nat) : Except ParseError ID :=
  if (splitPrefixID src).2.2.length < 29 then .error ⟨"ksuid too short"⟩
  else if (splitPrefixID src).2.2.length > 29 then .error ⟨"ksuid too long"⟩
  else
    match fastDecodeBase62 (splitPrefixID src).2.2 with
    | .error e => .error ⟨"invalid base62: " ++ e.errorString⟩
    | .ok dst =>
      match ParseInstanceID ((dst.drop 8).take 9) with
      | .error e => .error e
      | .ok iid =>
        .ok ⟨(if (splitPrefixID src).1 = [] then Production
              else (splitPrefixID src).1),
             (splitPrefixID src).2.1,
             instantOfUnix (toIntOfUInt64 (valBase 256 (dst.take 8))),
             some iid, valBase 256 (dst.drop 17)⟩

/-- `ID.prefixLen` from `id.go`. -/
def ID.prefixLen (id : ID) : Nat :=
  if id.Resource ≠ [] then
    id.Resource.length + 1 +
      (if id.Environment ≠ [] ∧ id.Environment ≠ Production then
        id.Environment.length + 1
      else 0)
  else 0

/-- The prefix bytes `ID.Bytes` writes before the body. -/
def ID.prefixBytes (id : ID) : List Nat :=
  if id.Resource ≠ [] then
    (if id.Environment ≠ [] ∧ id.Environment ≠ Production then
      id.Environment ++ [95]
    else []) ++ id.Resource ++ [95]
  else []

/-- The 21-byte binary payload `ID.Bytes` assembles for an instance id
`iid`: big-endian `uint64(Timestamp.Unix())`, the scheme byte, the
8-byte fingerprint, big-endian `uint32` sequence. -/
def ID.payload (id : ID) (iid : InstanceKind) : List Nat :=
  toDigitsBE 256 8 (toUInt64OfInt id.Timestamp.sec) ++
    [iid.scheme] ++ iid.bytes ++ toDigitsBE 256 4 (id.SequenceID % 2 ^ 32)

/-- `ID.Bytes` from `id.go`: prefix, two literal `'0'` spacer bytes, then
the 27-character base-62 body.  The method call `id.InstanceID.Bytes()`
on a nil interface panics; `none` models that panic. -/
def ID.Bytes (id : ID) : Option (List Nat) :=
  match id.InstanceID with
  | none => none
  | some iid => some (id.prefixBytes ++ [48, 48] ++ encodeBody27 (id.payload iid))

/-- `ID.String`: `string(id.Bytes())`. -/
def ID.String (id : ID) : Option (List Nat) :=
  id.Bytes

/-- `ID.Value` (database/sql driver): returns `id.Bytes()`. -/
def ID.Value (id : ID) : Option (List Nat) :=
  id.Bytes

/-- `ID.MarshalJSON`: `id.Bytes()` wrapped in double quotes (byte 34). -/
def ID.MarshalJSON (id : ID) : Option (List Nat) :=
  id.Bytes.map (fun b => [34] ++ b ++ [34])

/-- `ID.GetBSON`: returns `id.String()`. -/
def ID.GetBSON (id : ID) : Option (List Nat) :=
  id.String

/-- `ID.Equal` from `id.go`: false whenever either instance id is nil;
otherwise compares environment, resource, scheme, fingerprint bytes,
timestamp instant (`Timestamp.Equal`) and sequence. -/
def ID.Equal (id x : ID) : Bool :=
  match id.InstanceID, x.InstanceID with
  | some a, some b =>
    id.Environment == x.Environment && id.Resource == x.Resource &&
      a.scheme == b.scheme && a.bytes == b.bytes &&
      instantEqual id.Timestamp x.Timestamp && id.SequenceID == x.SequenceID
  | _, _ => false

/-- The `Node` struct of `node.go`: environment, instance id, and the
lock-guarded `(ts, seq)` pair.  The lock itself serializes calls and has
no other effect on the sequential semantics modelled here. -/
structure Node where
  Environment : List Nat
  InstanceID : Option InstanceKind
  ts : Instant
  seq : Nat
deriving DecidableEq, Repr

/-- `NewNode`: zero `ts` and `seq`.  (The zero `time.Time` is modelled as
the zero instant with the nil location behaving as UTC, as in Go.) -/
def NewNode (environment : List Nat) (instanceID : Option InstanceKind) : Node :=
  ⟨environment, instanceID, ⟨0, 0, true⟩, 0⟩

/-- `Node.Generate` from `node.go`, with the wall clock passed in: reads
`now.UTC()`; if it is more than one second past the recorded `ts`, adopt
it and reset `seq` to 0, otherwise keep `ts` and increment `seq`
(`uint32` wrap-around made explicit).  Returns the updated node and the
generated id, stamped with the node's environment, the given resource,
the node's instance id, and the resulting `(ts, seq)`. -/
def Node.Generate (n : Node) (resource : List Nat) (now : Instant) : Node × ID :=
  if instantSub now.utc n.ts > 1000000000 then
    (⟨n.Environment, n.InstanceID, now.utc, 0⟩,
     ⟨n.Environment, resource, now.utc, n.InstanceID, 0⟩)
  else
    (⟨n.Environment, n.InstanceID, n.ts, (n.seq + 1) % 2 ^ 32⟩,
     ⟨n.Environment, resource, n.ts, n.InstanceID, (n.seq + 1) % 2 ^ 32⟩)

/-- The `Set` struct of `set.go`: the ordered `items` slice and the
`lookup` map (a `map[ID]struct{}`, i.e. a finite set of ids keyed by
structural equality). -/
structure IDSet where
  items : List ID
  lookup : Finset ID
deriving DecidableEq

/-- `NewSet`: stores the initial slice as-is and inserts each element
into the lookup map. -/
def NewSet (x : List ID) : IDSet :=
  ⟨x, x.foldl (fun m id => insert id m) ∅⟩

/-- `Set.Append`: insert at the end only when the lookup map does not
already contain the id; report whether an insertion happened. -/
def IDSet.append (s : IDSet) (id : ID) : IDSet × Bool :=
  if id ∈ s.lookup then (s, false)
  else (⟨s.items ++ [id], insert id s.lookup⟩, true)

/-- `Set.Len`. -/
def IDSet.len (s : IDSet) : Nat :=
  s.items.length

/-- `Set.Exists`. -/
def IDSet.exists (s : IDSet) (id : ID) : Bool :=
  id ∈ s.lookup

/-- `Set.Delete`: remove from `items` the first element `x` with
`x.Equal(id)` (the copy-shift-truncate loop removes exactly that element,
preserving the order of the rest), and remove the key `id` itself from
the lookup map. -/
def IDSet.delete (s : IDSet) (id : ID) : IDSet :=
  ⟨s.items.eraseP (fun x => x.Equal id), s.lookup.erase id⟩

/-- `DecidableEq` for `Except` results, used to evaluate the embedding on
concrete inputs. -/
instance {e a : Type} [DecidableEq e] [DecidableEq a] :
    DecidableEq (Except e a) := fun x y =>
  match x, y with
  | .ok u, .ok v =>
    if h : u = v then .isTrue (by rw [h]) else .isFalse (by
      intro hc
      cases hc
      exact h rfl)
  | .error u, .error v =>
    if h : u = v then .isTrue (by rw [h]) else .isFalse (by
      intro hc
      cases hc
      exact h rfl)
  | .ok _, .error _ => .isFalse (by intro hc; cases hc)
  | .error _, .ok _ => .isFalse (by intro hc; cases hc)

/-- The hardware instance identity pinned by the repository's tests
(`8c:85:90:5f:44:ca`, pid 32985). -/
def exHW : InstanceKind := .hardware [140, 133, 144, 95, 68, 202] 32985

/-- The test-vector id `user_000000BPG6Lks9tQoAiJYrBRSXPX6`. -/
def exID : ID :=
  ⟨Production, [117, 115, 101, 114], ⟨1522947222, 0, true⟩, some exHW, 0⟩

/-- The zero `ID` value (nil instance id). -/
def exZeroID : ID := ⟨[], [], ⟨0, 0, true⟩, none, 0⟩

/-- A node configured for a non-production environment (`test`). -/
def exNode : Node := ⟨[116, 101, 115, 116], some exHW, ⟨5, 0, true⟩, 0⟩

/-- A wall-clock reading with whole seconds. -/
def exNow : Instant := ⟨100, 0, false⟩

/-- A wall-clock reading with a non-zero sub-second component. -/
def exNowSub : Instant := ⟨100, 5, false⟩

/-- An id generated by `exNode` with an empty resource. -/
def exGenID : ID := (exNode.Generate [] exNow).2

/-- The encoded bytes of `exGenID`. -/
def exGenBytes : List Nat := (exGenID.Bytes).getD []

/-- The 29-character base-62 text whose value is exactly `2^160`
(`00aWgEPTl1tmebfsQzFP4bxwgy80W`): it fits in 21 bytes but the decoder
rejects it. -/
def s160 : List Nat :=
  [48, 48, 97, 87, 103, 69, 80, 84, 108, 49, 116, 109, 101, 98, 102, 115,
   81, 122, 70, 80, 52, 98, 120, 119, 103, 121, 56, 48, 87]

/-- The 21-byte payload with value `2^160` (leading byte 1). -/
def overflowPayload : List Nat := 1 :: List.replicate 20 0

/-- The id that `Parse` reconstructs from `exGenBytes`. -/
def exGenParsed : ID := ⟨Production, [], ⟨100, 0, true⟩, some exHW, 0⟩

/-- A 29-character input whose last byte `'='` (61) is outside the
base-62 alphabet; the wrapped digit arithmetic maps it to 0. -/
def invalidCharStr : List Nat := List.replicate 28 48 ++ [61]

/-! ### Positional-value and digit-list lemmas -/

theorem valBase_concat (base : Nat) (l : List Nat) (c : Nat) :
    valBase base (l ++ [c]) = valBase base l * base + c := by
  unfold valBase
  rw [List.foldl_append]
  rfl

theorem length_toDigitsBE (base k v : Nat) : (toDigitsBE base k v).length = k := by
  induction k generalizing v with
  | zero => rfl
  | succ k ih => simp [toDigitsBE, ih]

theorem valBase_toDigitsBE (base : Nat) : ∀ k v : Nat, v < base ^ k →
    valBase base (toDigitsBE base k v) = v := by
  intro k
  induction k with
  | zero =>
    intro v hv
    simp [pow_zero, Nat.lt_one_iff] at hv
    subst hv
    rfl
  | succ k ih =>
    intro v hv
    have hb : 0 < base := by
      rcases Nat.eq_zero_or_pos base with h | h
      · subst h; simp at hv
      · exact h
    have hdiv : v / base < base ^ k := by
      apply Nat.div_lt_of_lt_mul
      rw [Nat.mul_comm]
      rw [pow_succ] at hv
      exact hv
    rw [toDigitsBE, valBase_concat, ih _ hdiv, Nat.mul_comm (v / base) base,
      Nat.div_add_mod]

theorem toDigitsBE_valBase (base : Nat) (l : List Nat) (hlt : ∀ c ∈ l, c < base) :
    toDigitsBE base l.length (valBase base l) = l := by
  induction l using List.reverseRecOn with
  | nil => rfl
  | append_singleton l c ih =>
    have hc : c < base := hlt c (by simp)
    have hb : 0 < base := Nat.lt_of_le_of_lt (Nat.zero_le c) hc
    have hlen : (l ++ [c]).length = l.length + 1 := by simp
    rw [hlen, valBase_concat, toDigitsBE]
    have hdiv : (valBase base l * base + c) / base = valBase base l := by
      rw [Nat.mul_comm (valBase base l) base, Nat.mul_add_div hb,
        Nat.div_eq_of_lt hc, Nat.add_zero]
    have hmod : (valBase base l * base + c) % base = c := by
      rw [Nat.mul_comm (valBase base l) base, Nat.mul_add_mod, Nat.mod_eq_of_lt hc]
    rw [hdiv, hmod, ih (fun d hd => hlt d (by simp [hd]))]

theorem toDigitsBE_all_lt (base : Nat) : ∀ k v : Nat, v < base ^ k →
    ∀ c ∈ toDigitsBE base k v, c < base := by
  intro k
  induction k with
  | zero => intro v _ c hc; simp [toDigitsBE] at hc
  | succ k ih =>
    intro v hv c hc
    have hb : 0 < base := by
      rcases Nat.eq_zero_or_pos base with h | h
      · subst h; simp at hv
      · exact h
    have hdiv : v / base < base ^ k := by
      apply Nat.div_lt_of_lt_mul
      rw [Nat.mul_comm]
      rw [pow_succ] at hv
      exact hv
    rw [toDigitsBE] at hc
    rcases List.mem_append.mp hc with h | h
    · exact ih _ hdiv c h
    · simp at h
      subst h
      exact Nat.mod_lt _ hb

theorem toDigitsBE_split (base : Nat) : ∀ j k v : Nat,
    toDigitsBE base (k + j) v =
      toDigitsBE base k (v / base ^ j) ++ toDigitsBE base j (v % base ^ j) := by
  intro j
  induction j with
  | zero => intro k v; simp [toDigitsBE]
  | succ j ih =>
    intro k v
    have h1 : v / base / base ^ j = v / base ^ (j + 1) := by
      rw [Nat.div_div_eq_div_mul, ← pow_succ']
    have h2 : v / base % base ^ j = v % base ^ (j + 1) / base := by
      rw [pow_succ', Nat.mod_mul_right_div_self]
    have h3 : v % base ^ (j + 1) % base = v % base := by
      rw [Nat.mod_mod_of_dvd _ (dvd_pow_self base (Nat.succ_ne_zero j))]
    show toDigitsBE base (k + j + 1) v = _
    rw [toDigitsBE, ih k (v / base), h1, h2]
    rw [toDigitsBE, h3]
    simp

theorem toDigitsBE_zero (base : Nat) : ∀ k : Nat, toDigitsBE base k 0 = List.replicate k 0 := by
  intro k
  induction k with
  | zero => rfl
  | succ k ih =>
    rw [toDigitsBE, Nat.zero_div, Nat.zero_mod, ih, List.replicate_succ']

theorem valBase_foldl_init (base : Nat) (l : List Nat) : ∀ a : Nat,
    l.foldl (fun x c => x * base + c) a = a * base ^ l.length + valBase base l := by
  induction l with
  | nil => intro a; simp [valBase]
  | cons c l ih =>
    intro a
    have hv : valBase base (c :: l) = c * base ^ l.length + valBase base l := by
      simp only [valBase, List.foldl_cons, Nat.zero_mul, Nat.zero_add]
      exact ih c
    simp only [List.foldl_cons, List.length_cons, hv]
    rw [ih (a * base + c), pow_succ]
    ring

theorem valBase_cons (base c : Nat) (l : List Nat) :
    valBase base (c :: l) = c * base ^ l.length + valBase base l := by
  simp only [valBase, List.foldl_cons, Nat.zero_mul, Nat.zero_add]
  exact valBase_foldl_init base l c

theorem valBase_append (base : Nat) (l₁ l₂ : List Nat) :
    valBase base (l₁ ++ l₂) =
      valBase base l₁ * base ^ l₂.length + valBase base l₂ := by
  unfold valBase
  rw [List.foldl_append]
  exact valBase_foldl_init base l₂ _

/-! ### Long-division invariant of `divStep` -/

theorem divStepF_eq (q : List Nat) (r c : Nat) :
    divStepF (q, r) c =
      if q ≠ [] ∨ (c + r * 62) / 4294967296 ≠ 0 then
        (q ++ [(c + r * 62) / 4294967296], (c + r * 62) % 4294967296)
      else (q, (c + r * 62) % 4294967296) := rfl

theorem divStep_go (rest : List Nat) : ∀ (q : List Nat) (r : Nat),
    r < 2 ^ 32 → (q ≠ [] → 0 < valBase 62 q) →
    (rest.foldl divStepF (q, r)).2 < 2 ^ 32 ∧
    ((rest.foldl divStepF (q, r)).1 ≠ [] →
      0 < valBase 62 (rest.foldl divStepF (q, r)).1) ∧
    valBase 62 (rest.foldl divStepF (q, r)).1 * 2 ^ 32 +
        (rest.foldl divStepF (q, r)).2 =
      (valBase 62 q * 2 ^ 32 + r) * 62 ^ rest.length + valBase 62 rest := by
  induction rest with
  | nil =>
    intro q r hr hq
    refine ⟨hr, hq, ?_⟩
    simp [valBase]
  | cons c rest ih =>
    intro q r hr hq
    have h32 : (4294967296 : Nat) = 2 ^ 32 := by norm_num
    have hrem : (c + r * 62) % 4294967296 < 2 ^ 32 := by
      rw [h32]
      exact Nat.mod_lt _ (by norm_num)
    simp only [List.foldl_cons, divStepF_eq]
    by_cases hcond : q ≠ [] ∨ (c + r * 62) / 4294967296 ≠ 0
    · rw [if_pos hcond]
      have hq' : q ++ [(c + r * 62) / 4294967296] ≠ [] →
          0 < valBase 62 (q ++ [(c + r * 62) / 4294967296]) := by
        intro _
        rw [valBase_concat]
        rcases hcond with hne | hd
        · have := hq hne
          positivity
        · omega
      have hval : valBase 62 (q ++ [(c + r * 62) / 4294967296]) * 2 ^ 32 +
          (c + r * 62) % 4294967296 =
          (valBase 62 q * 2 ^ 32 + r) * 62 + c := by
        rw [valBase_concat, h32]
        have hdm := Nat.div_add_mod (c + r * 62) (2 ^ 32)
        nlinarith [hdm]
      obtain ⟨h1, h2, h3⟩ := ih (q ++ [(c + r * 62) / 4294967296])
        ((c + r * 62) % 4294967296) hrem hq'
      refine ⟨h1, h2, ?_⟩
      rw [h3, hval, valBase_cons, List.length_cons, pow_succ]
      ring
    · rw [if_neg hcond]
      push_neg at hcond
      obtain ⟨hqnil, hd0⟩ := hcond
      subst hqnil
      have hrsmall : (c + r * 62) % 4294967296 = c + r * 62 := by
        apply Nat.mod_eq_of_lt
        rcases Nat.lt_or_ge (c + r * 62) 4294967296 with h | h
        · exact h
        · exfalso
          have h1 : 1 ≤ (c + r * 62) / 4294967296 :=
            (Nat.one_le_div_iff (by norm_num)).mpr h
          omega
      obtain ⟨h1, h2, h3⟩ := ih [] ((c + r * 62) % 4294967296)
        hrem (by intro h; exact absurd rfl h)
      refine ⟨h1, h2, ?_⟩
      rw [h3, hrsmall, valBase_cons, List.length_cons, pow_succ]
      have hnilval : valBase 62 ([] : List Nat) = 0 := rfl
      rw [hnilval]
      ring

theorem divStep_rem_lt (bp : List Nat) : (divStep bp).2 < 2 ^ 32 :=
  (divStep_go bp [] 0 (by norm_num) (by intro h; exact absurd rfl h)).1

theorem divStep_val (bp : List Nat) :
    valBase 62 (divStep bp).1 * 2 ^ 32 + (divStep bp).2 = valBase 62 bp := by
  have h := (divStep_go bp [] 0 (by norm_num) (by intro h; exact absurd rfl h)).2.2
  have hnilval : valBase 62 ([] : List Nat) = 0 := rfl
  rw [hnilval] at h
  simpa [divStep] using h

theorem divStep_pos (bp : List Nat) :
    (divStep bp).1 ≠ [] → 0 < valBase 62 (divStep bp).1 :=
  (divStep_go bp [] 0 (by norm_num) (by intro h; exact absurd rfl h)).2.1

theorem divStep_quot_val (bp : List Nat) :
    valBase 62 (divStep bp).1 = valBase 62 bp / 2 ^ 32 := by
  have h1 := divStep_val bp
  have h2 := divStep_rem_lt bp
  omega

theorem divStep_rem_val (bp : List Nat) :
    (divStep bp).2 = valBase 62 bp % 2 ^ 32 := by
  have h1 := divStep_val bp
  have h2 := divStep_rem_lt bp
  omega

theorem divStep_nil_iff (bp : List Nat) :
    (divStep bp).1 = [] ↔ valBase 62 bp < 2 ^ 32 := by
  constructor
  · intro h
    have h1 := divStep_val bp
    have h2 := divStep_rem_lt bp
    rw [h] at h1
    have hnilval : valBase 62 ([] : List Nat) = 0 := rfl
    rw [hnilval] at h1
    omega
  · intro h
    by_contra hne
    have hpos := divStep_pos bp hne
    have h1 := divStep_val bp
    nlinarith

/-! ### Characterization of the decoder loop -/

theorem chunk4_eq (r : Nat) : chunk4 r = toDigitsBE 256 4 r := by
  norm_num [chunk4, toDigitsBE, Nat.div_div_eq_div_mul]

theorem decodeChunks_nil (n : Nat) (acc : List Nat) :
    decodeChunks [] n acc = .ok (List.replicate n 0 ++ acc) := by
  unfold decodeChunks
  rfl

theorem decodeChunks_step (a : Nat) (l : List Nat) (n' : Nat) (acc : List Nat) :
    decodeChunks (a :: l) (n' + 4) acc =
      decodeChunks (divStep (a :: l)).1 n' (chunk4 (divStep (a :: l)).2 ++ acc) := rfl

theorem decodeChunks_one (a : Nat) (l : List Nat) (acc : List Nat) :
    decodeChunks (a :: l) 1 acc = .error ⟨"output buffer too short"⟩ := rfl

theorem decodeChunks_spec : ∀ (m : Nat) (bp acc : List Nat),
    (valBase 62 bp = 0 → bp = []) →
    decodeChunks bp (4 * m + 1) acc =
      if valBase 62 bp < 2 ^ (32 * m)
      then .ok (toDigitsBE 256 (4 * m + 1) (valBase 62 bp) ++ acc)
      else .error ⟨"output buffer too short"⟩ := by
  intro m
  induction m with
  | zero =>
    intro bp acc hc
    cases bp with
    | nil =>
      have hval : valBase 62 ([] : List Nat) = 0 := rfl
      rw [decodeChunks_nil, hval, if_pos (by norm_num)]
      rw [show 4 * 0 + 1 = 1 from rfl, toDigitsBE_zero]
    | cons a l =>
      have hlt : ¬ valBase 62 (a :: l) < 2 ^ (32 * 0) := by
        simp only [Nat.mul_zero, pow_zero, Nat.lt_one_iff]
        intro h0
        exact absurd (hc h0) (by simp)
      rw [if_neg hlt]
      exact decodeChunks_one a l acc

  | succ m ih =>
    intro bp acc hc
    cases bp with
    | nil =>
      have hval : valBase 62 ([] : List Nat) = 0 := rfl
      rw [decodeChunks_nil, hval, if_pos (by positivity), toDigitsBE_zero]
    | cons a l =>
      have hstep : 4 * (m + 1) + 1 = (4 * m + 1) + 4 := by ring
      rw [hstep, decodeChunks_step]
      have hq := divStep_quot_val (a :: l)
      have hr := divStep_rem_val (a :: l)
      have hcanon : valBase 62 (divStep (a :: l)).1 = 0 → (divStep (a :: l)).1 = [] := by
        intro h0
        rw [divStep_nil_iff]
        rw [hq] at h0
        exact (Nat.div_eq_zero_iff (by norm_num)).mp h0
      rw [ih _ _ hcanon, hq, hr]
      have hpow : (2 : Nat) ^ (32 * (m + 1)) = 2 ^ (32 * m) * 2 ^ 32 := by
        rw [← pow_add]
        ring
      have hiff : valBase 62 (a :: l) / 2 ^ 32 < 2 ^ (32 * m) ↔
          valBase 62 (a :: l) < 2 ^ (32 * (m + 1)) := by
        rw [Nat.div_lt_iff_lt_mul (by norm_num : (0 : Nat) < 2 ^ 32), hpow]
      by_cases hv : valBase 62 (a :: l) < 2 ^ (32 * (m + 1))
      · rw [if_pos (hiff.mpr hv), if_pos hv, chunk4_eq]
        have hsplit := toDigitsBE_split 256 4 (4 * m + 1) (valBase 62 (a :: l))
        have h2564 : (256 : Nat) ^ 4 = 2 ^ 32 := by norm_num
        rw [h2564] at hsplit
        rw [hsplit, List.append_assoc]
      · rw [if_neg (fun h => hv (hiff.mp h)), if_neg hv]

/-- Master characterization of `fastDecodeBase62`: it succeeds with the
21-byte big-endian encoding of the input's base-62 value exactly when
that value fits in 160 bits (five 4-byte chunks), and otherwise fails
with the `output buffer too short` error. -/
theorem fastDecodeBase62_eq (src : List Nat) :
    fastDecodeBase62 src =
      if valBase 62 (src.map base62Value) < 2 ^ 160
      then .ok (toDigitsBE 256 21 (valBase 62 (src.map base62Value)))
      else .error ⟨"output buffer too short"⟩ := by
  unfold fastDecodeBase62
  cases hsrc : src.map base62Value with
  | nil =>
    have hval : valBase 62 ([] : List Nat) = 0 := rfl
    rw [decodeChunks_nil, hval, if_pos (by norm_num), toDigitsBE_zero, List.append_nil]
  | cons a l =>
    rw [show (21 : Nat) = 17 + 4 from rfl, decodeChunks_step]
    have hq := divStep_quot_val (a :: l)
    have hr := divStep_rem_val (a :: l)
    have hcanon : valBase 62 (divStep (a :: l)).1 = 0 → (divStep (a :: l)).1 = [] := by
      intro h0
      rw [divStep_nil_iff]
      rw [hq] at h0
      exact (Nat.div_eq_zero_iff (by norm_num)).mp h0
    rw [show (17 : Nat) = 4 * 4 + 1 from rfl, decodeChunks_spec 4 _ _ hcanon, hq, hr]
    have hpow : (2 : Nat) ^ 160 = 2 ^ (32 * 4) * 2 ^ 32 := by norm_num
    have hiff : valBase 62 (a :: l) / 2 ^ 32 < 2 ^ (32 * 4) ↔
        valBase 62 (a :: l) < 2 ^ 160 := by
      rw [Nat.div_lt_iff_lt_mul (by norm_num : (0 : Nat) < 2 ^ 32), hpow]
    by_cases hv : valBase 62 (a :: l) < 2 ^ 160
    · rw [if_pos (hiff.mpr hv), if_pos hv, chunk4_eq]
      have hsplit := toDigitsBE_split 256 4 (4 * 4 + 1) (valBase 62 (a :: l))
      have h2564 : (256 : Nat) ^ 4 = 2 ^ 32 := by norm_num
      rw [h2564] at hsplit
      rw [hsplit, List.append_nil]
    · rw [if_neg (fun h => hv (hiff.mp h)), if_neg hv]

/-! ### Alphabet lemmas -/

theorem base62Value_base62Char (d : Nat) (h : d < 62) :
    base62Value (base62Char d) = d := by
  unfold base62Value base62Char
  split_ifs <;> omega

theorem base62Char_isAlpha (d : Nat) (h : d < 62) : IsBase62Char (base62Char d) := by
  unfold IsBase62Char base62Char
  split_ifs <;> omega

theorem base62Value_lt (c : Nat) (h : IsBase62Char c) : base62Value c < 62 := by
  unfold IsBase62Char at h
  unfold base62Value
  split_ifs <;> omega

theorem base62Char_base62Value (c : Nat) (h : IsBase62Char c) :
    base62Char (base62Value c) = c := by
  unfold IsBase62Char at h
  unfold base62Value base62Char
  split_ifs <;> omega

theorem map_value_map_char (l : List Nat) (h : ∀ d ∈ l, d < 62) :
    (l.map base62Char).map base62Value = l := by
  rw [List.map_map]
  apply List.map_congr_left ?_ |>.trans l.map_id
  intro d hd
  exact base62Value_base62Char d (h d hd)

theorem valBase_lt_pow (base : Nat) (l : List Nat) (h : ∀ c ∈ l, c < base) :
    valBase base l < base ^ l.length := by
  induction l using List.reverseRecOn with
  | nil => simp [valBase]
  | append_singleton l c ih =>
    rw [valBase_concat]
    have hc : c < base := h c (by simp)
    have hl : valBase base l < base ^ l.length :=
      ih (fun d hd => h d (by simp [hd]))
    have : (l ++ [c]).length = l.length + 1 := by simp
    rw [this, pow_succ]
    nlinarith

/-! ### Byte-index and prefix-splitting lemmas -/

theorem indexByte_nil (c : Nat) : indexByte [] c = none := rfl

theorem indexByte_cons (a : Nat) (l : List Nat) (c : Nat) :
    indexByte (a :: l) c =
      if a = c then some 0 else (indexByte l c).map (· + 1) := rfl

theorem indexByte_not_mem (s : List Nat) (c : Nat) (h : c ∉ s) :
    indexByte s c = none := by
  induction s with
  | nil => rfl
  | cons a l ih =>
    simp only [List.mem_cons, not_or] at h
    rw [indexByte_cons, if_neg (fun hh => h.1 hh.symm), ih h.2]
    rfl

theorem indexByte_append (pre body : List Nat) (c : Nat) (hp : c ∉ pre) :
    indexByte (pre ++ c :: body) c = some pre.length := by
  induction pre with
  | nil =>
    rw [List.nil_append, indexByte_cons, if_pos rfl]
    rfl
  | cons a l ih =>
    simp only [List.mem_cons, not_or] at hp
    rw [List.cons_append, indexByte_cons, if_neg (fun hh => hp.1 hh.symm),
      ih hp.2]
    rfl

theorem indexByte_lt_length (s : List Nat) (c : Nat) :
    ∀ j, indexByte s c = some j → j < s.length := by
  induction s with
  | nil => intro j h; simp [indexByte_nil] at h
  | cons a l ih =>
    intro j h
    rw [indexByte_cons] at h
    split_ifs at h with ha
    · cases h
      simp
    · cases hj : indexByte l c with
      | none => rw [hj] at h; simp at h
      | some j' =>
        rw [hj] at h
        simp at h
        have := ih j' hj
        simp
        omega

theorem lastIndexByte_nil (c : Nat) : lastIndexByte [] c = none := rfl

theorem lastIndexByte_cons (a : Nat) (l : List Nat) (c : Nat) :
    lastIndexByte (a :: l) c =
      match lastIndexByte l c with
      | some i => some (i + 1)
      | none => if a = c then some 0 else none := rfl

theorem lastIndexByte_not_mem (s : List Nat) (c : Nat) (h : c ∉ s) :
    lastIndexByte s c = none := by
  induction s with
  | nil => rfl
  | cons a l ih =>
    simp only [List.mem_cons, not_or] at h
    rw [lastIndexByte_cons, ih h.2, if_neg (fun hh => h.1 hh.symm)]

theorem lastIndexByte_append (pre body : List Nat) (c : Nat) (hb : c ∉ body) :
    lastIndexByte (pre ++ c :: body) c = some pre.length := by
  induction pre with
  | nil =>
    rw [List.nil_append, lastIndexByte_cons, lastIndexByte_not_mem body c hb,
      if_pos rfl]
    rfl
  | cons a l ih =>
    rw [List.cons_append, lastIndexByte_cons, ih]
    rfl

theorem splitPrefixID_no_underscore (s : List Nat) (h : 95 ∉ s) :
    splitPrefixID s = ([], [], s) := by
  unfold splitPrefixID
  rw [lastIndexByte_not_mem s 95 h]

theorem splitPrefixID_split (pre body : List Nat) (hb : 95 ∉ body) :
    splitPrefixID (pre ++ 95 :: body) =
      match indexByte pre 95 with
      | some j => (pre.take j, pre.drop (j + 1), body)
      | none => ([], pre, body) := by
  have htake : (pre ++ 95 :: body).take pre.length = pre := List.take_left pre _
  have hdrop : (pre ++ 95 :: body).drop (pre.length + 1) = body := by
    rw [← List.drop_drop, List.drop_left]
    rfl
  have hred : splitPrefixID (pre ++ 95 :: body) =
      match indexByte ((pre ++ 95 :: body).take pre.length) 95 with
      | some j => ((pre ++ 95 :: body).take j,
          ((pre ++ 95 :: body).take pre.length).drop (j + 1),
          (pre ++ 95 :: body).drop (pre.length + 1))
      | none => ([], (pre ++ 95 :: body).take pre.length,
          (pre ++ 95 :: body).drop (pre.length + 1)) := by
    unfold splitPrefixID
    rw [lastIndexByte_append pre body 95 hb]
  rw [hred, htake, hdrop]
  cases hj : indexByte pre 95 with
  | none => rfl
  | some j =>
    have hjlt := indexByte_lt_length pre 95 j hj
    show ((pre ++ 95 :: body).take j, pre.drop (j + 1), body) = _
    rw [List.take_append_of_le_length (Nat.le_of_lt hjlt)]

/-! ### Well-formedness and payload lemmas -/

/-- Well-formed instance identities: what `ParseInstanceID` produces and
the detection constructors maintain (6-byte hardware address with 16-bit
process id; 8-byte container/random fingerprints; byte-valued entries). -/
def InstanceKind.WF : InstanceKind → Prop
  | .hardware mac pid => mac.length = 6 ∧ (∀ c ∈ mac, c < 256) ∧ pid < 2 ^ 16
  | .docker cid => cid.length = 8 ∧ ∀ c ∈ cid, c < 256
  | .random r => r.length = 8 ∧ ∀ c ∈ r, c < 256

/-- A valid Identifier Value in the sense of the data model (§3): a
present, well-formed instance identity; a non-empty environment without
the `'_'` separator (`Parse` never produces an empty environment); a
resource without `'_'`; the production sentinel whenever the resource is
empty (an empty resource suppresses the whole prefix); a second-resolution
UTC timestamp within the encodable 56-bit range; a 32-bit sequence. -/
def ValidID (id : ID) : Prop :=
  (∃ iid, id.InstanceID = some iid ∧ iid.WF) ∧
    id.Environment ≠ [] ∧ 95 ∉ id.Environment ∧ 95 ∉ id.Resource ∧
    (id.Resource = [] → id.Environment = Production) ∧
    0 ≤ id.Timestamp.sec ∧ id.Timestamp.sec < 2 ^ 56 ∧
    id.Timestamp.nsec = 0 ∧ id.Timestamp.isUTC = true ∧
    id.SequenceID < 2 ^ 32

theorem padCopy_length (n : Nat) (l : List Nat) : (padCopy n l).length = n := by
  simp [padCopy]
  omega

theorem padCopy_of_length (n : Nat) (l : List Nat) (h : l.length = n) :
    padCopy n l = l := by
  simp [padCopy, h, List.take_of_length_le (Nat.le_of_eq h)]

theorem InstanceKind.bytes_length (iid : InstanceKind) (h : iid.WF) :
    iid.bytes.length = 8 := by
  cases iid <;> simp [InstanceKind.bytes, padCopy_length]

theorem InstanceKind.bytes_lt (iid : InstanceKind) (h : iid.WF) :
    ∀ c ∈ iid.bytes, c < 256 := by
  cases iid with
  | hardware mac pid =>
    obtain ⟨hlen, hmac, hpid⟩ := h
    intro c hc
    simp only [InstanceKind.bytes, List.mem_append, List.mem_cons,
      List.not_mem_nil, padCopy] at hc
    rcases hc with (hc | hc) | hc
    · exact hmac c (List.mem_of_mem_take hc)
    · rw [List.eq_of_mem_replicate hc]
      norm_num
    · rcases hc with hc | hc | hc
      · subst hc
        exact Nat.mod_lt _ (by norm_num)
      · subst hc
        exact Nat.mod_lt _ (by norm_num)
      · simp at hc
  | docker cid =>
    obtain ⟨hlen, hcid⟩ := h
    intro c hc
    simp only [InstanceKind.bytes, padCopy, List.mem_append] at hc
    rcases hc with hc | hc
    · exact hcid c (List.mem_of_mem_take hc)
    · rw [List.eq_of_mem_replicate hc]
      norm_num
  | random r =>
    obtain ⟨hlen, hr⟩ := h
    intro c hc
    simp only [InstanceKind.bytes, padCopy, List.mem_append] at hc
    rcases hc with hc | hc
    · exact hr c (List.mem_of_mem_take hc)
    · rw [List.eq_of_mem_replicate hc]
      norm_num

theorem ParseInstanceID_cons (s : Nat) (b : List Nat) (hb : b.length = 8) :
    ParseInstanceID (s :: b) =
      if s = 72 then ParseHardwareID b
      else if s = 68 then ParseDockerID b
      else if s = 82 then ParseRandomID b
      else .error ⟨"unknown node id"⟩ := by
  unfold ParseInstanceID
  simp [hb]

theorem ParseHardwareID_eq (mac : List Nat) (pid : Nat) (hmac : mac.length = 6)
    (hpid : pid < 2 ^ 16) :
    ParseHardwareID (mac ++ [pid / 256 % 256, pid % 256]) =
      .ok (.hardware mac pid) := by
  unfold ParseHardwareID
  rw [if_neg (by simp [hmac])]
  have htake : (mac ++ [pid / 256 % 256, pid % 256]).take 6 = mac := by
    rw [← hmac, List.take_left]
  have hdrop6 : (mac ++ [pid / 256 % 256, pid % 256]).drop 6 =
      [pid / 256 % 256, pid % 256] := by
    rw [← hmac, List.drop_left]
  have hdrop7 : (mac ++ [pid / 256 % 256, pid % 256]).drop 7 = [pid % 256] := by
    rw [show 7 = 6 + 1 by rfl, ← List.drop_drop, hdrop6]
    rfl
  rw [htake, hdrop6, hdrop7]
  have hdivmod : pid / 256 % 256 * 256 + pid % 256 = pid := by omega
  simp only [List.headI, hdivmod]

/-- Re-parsing the scheme byte and fingerprint of a well-formed instance
identity reproduces it. -/
theorem ParseInstanceID_bytes (iid : InstanceKind) (h : iid.WF) :
    ParseInstanceID (iid.scheme :: iid.bytes) = .ok iid := by
  rw [ParseInstanceID_cons _ _ (iid.bytes_length h)]
  cases iid with
  | hardware mac pid =>
    obtain ⟨hmac, _, hpid⟩ := h
    have hpad : padCopy 6 mac = mac := padCopy_of_length 6 mac hmac
    simp only [InstanceKind.scheme, InstanceKind.bytes, hpad]
    rw [if_pos trivial]
    exact ParseHardwareID_eq mac pid hmac hpid
  | docker cid =>
    obtain ⟨hcid, _⟩ := h
    have hpad : padCopy 8 cid = cid := padCopy_of_length 8 cid hcid
    simp [InstanceKind.scheme, InstanceKind.bytes, hpad, ParseDockerID, hcid]
  | random r =>
    obtain ⟨hr, _⟩ := h
    have hpad : padCopy 8 r = r := padCopy_of_length 8 r hr
    simp [InstanceKind.scheme, InstanceKind.bytes, hpad, ParseRandomID, hr]

theorem toUInt64OfInt_lt (s : Int) : toUInt64OfInt s < 2 ^ 64 := by
  unfold toUInt64OfInt
  omega

theorem toIntOfUInt64_toUInt64 (s : Int) (h0 : 0 ≤ s) (h1 : s < 2 ^ 63) :
    toIntOfUInt64 (toUInt64OfInt s) = s := by
  unfold toIntOfUInt64 toUInt64OfInt
  have hmod : s % 2 ^ 64 = s := Int.emod_eq_of_lt h0 (by omega)
  rw [hmod]
  rw [if_pos (by omega)]
  omega

theorem payload_length (id : ID) (iid : InstanceKind) (h : iid.WF) :
    (id.payload iid).length = 21 := by
  simp [ID.payload, length_toDigitsBE, iid.bytes_length h]

theorem payload_lt (id : ID) (iid : InstanceKind) (h : iid.WF) :
    ∀ c ∈ id.payload iid, c < 256 := by
  intro c hc
  simp only [ID.payload, List.mem_append, List.mem_cons, List.not_mem_nil,
    or_false] at hc
  rcases hc with ((hc | hc) | hc) | hc
  · exact toDigitsBE_all_lt 256 8 _ (toUInt64OfInt_lt _) c hc
  · subst hc
    cases iid <;> simp [InstanceKind.scheme]
  · exact iid.bytes_lt h c hc
  · exact toDigitsBE_all_lt 256 4 _ (by
      have := Nat.mod_lt id.SequenceID (y := 2 ^ 32) (by norm_num)
      calc id.SequenceID % 2 ^ 32 < 2 ^ 32 := this
        _ ≤ 256 ^ 4 := by norm_num) c hc

theorem payload_assoc (id : ID) (iid : InstanceKind) :
    id.payload iid =
      toDigitsBE 256 8 (toUInt64OfInt id.Timestamp.sec) ++
        ((iid.scheme :: iid.bytes) ++ toDigitsBE 256 4 (id.SequenceID % 2 ^ 32)) := by
  simp [ID.payload, List.append_assoc]

theorem payload_take8 (id : ID) (iid : InstanceKind) :
    (id.payload iid).take 8 = toDigitsBE 256 8 (toUInt64OfInt id.Timestamp.sec) := by
  rw [payload_assoc]
  exact List.take_left' (length_toDigitsBE 256 8 _)

theorem payload_drop8_take9 (id : ID) (iid : InstanceKind) (h : iid.WF) :
    ((id.payload iid).drop 8).take 9 = iid.scheme :: iid.bytes := by
  rw [payload_assoc, List.drop_left' (length_toDigitsBE 256 8 _)]
  exact List.take_left' (by simp [iid.bytes_length h])

theorem payload_drop17 (id : ID) (iid : InstanceKind) (h : iid.WF) :
    (id.payload iid).drop 17 = toDigitsBE 256 4 (id.SequenceID % 2 ^ 32) := by
  have hassoc : id.payload iid =
      (toDigitsBE 256 8 (toUInt64OfInt id.Timestamp.sec) ++
        (iid.scheme :: iid.bytes)) ++ toDigitsBE 256 4 (id.SequenceID % 2 ^ 32) := by
    simp [ID.payload, List.append_assoc]
  rw [hassoc]
  exact List.drop_left' (by simp [length_toDigitsBE, iid.bytes_length h])

theorem payload_val_lt (id : ID) (iid : InstanceKind) (h : iid.WF)
    (hsec0 : 0 ≤ id.Timestamp.sec) (hsec : id.Timestamp.sec < 2 ^ 56) :
    valBase 256 (id.payload iid) < 2 ^ 160 := by
  have hsplit : id.payload iid =
      toDigitsBE 256 8 (toUInt64OfInt id.Timestamp.sec) ++
        (iid.scheme :: (iid.bytes ++ toDigitsBE 256 4 (id.SequenceID % 2 ^ 32))) := by
    simp [ID.payload, List.append_assoc]
  rw [hsplit, valBase_append]
  have hrestlen : (iid.scheme :: (iid.bytes ++
      toDigitsBE 256 4 (id.SequenceID % 2 ^ 32))).length = 13 := by
    simp [iid.bytes_length h, length_toDigitsBE]
  have hrest : valBase 256 (iid.scheme :: (iid.bytes ++
      toDigitsBE 256 4 (id.SequenceID % 2 ^ 32))) < 256 ^ 13 := by
    rw [← hrestlen]
    apply valBase_lt_pow
    intro c hc
    have hfull : c ∈ id.payload iid := by
      rw [hsplit]
      simp only [List.mem_append]
      exact Or.inr hc
    exact payload_lt id iid h c hfull
  have hts : valBase 256 (toDigitsBE 256 8 (toUInt64OfInt id.Timestamp.sec)) =
      toUInt64OfInt id.Timestamp.sec := by
    apply valBase_toDigitsBE
    calc toUInt64OfInt id.Timestamp.sec < 2 ^ 64 := toUInt64OfInt_lt _
      _ ≤ 256 ^ 8 := by norm_num
  rw [hts, hrestlen]
  have hu : toUInt64OfInt id.Timestamp.sec < 2 ^ 56 := by
    unfold toUInt64OfInt
    have : id.Timestamp.sec % 2 ^ 64 = id.Timestamp.sec :=
      Int.emod_eq_of_lt hsec0 (by omega)
    omega
  have h13 : (256 : Nat) ^ 13 = 2 ^ 104 := by norm_num
  rw [h13]
  nlinarith [hu, hrest]

/-! ### Body encoding and `Parse` round trip -/

theorem length_encodeBody27 (x : List Nat) : (encodeBody27 x).length = 27 := by
  simp [encodeBody27, length_toDigitsBE]

theorem base62Char_ne_95 (d : Nat) : base62Char d ≠ 95 := by
  unfold base62Char
  split_ifs <;> omega

theorem not_mem_95_encodeBody27 (x : List Nat) : 95 ∉ encodeBody27 x := by
  intro h
  simp only [encodeBody27, List.mem_map] at h
  obtain ⟨d, _, hd⟩ := h
  exact base62Char_ne_95 d hd

theorem not_mem_95_body (x : List Nat) : 95 ∉ [48, 48] ++ encodeBody27 x := by
  intro h
  rcases List.mem_append.mp h with h | h
  · simp at h
  · exact not_mem_95_encodeBody27 x h

/-- Decoding the spacer plus the 27-character body of a 21-byte payload
whose value fits in 160 bits recovers the payload. -/
theorem decode_spacer_body (x : List Nat) (hlen : x.length = 21)
    (hlt : ∀ c ∈ x, c < 256) (hv : valBase 256 x < 2 ^ 160) :
    fastDecodeBase62 ([48, 48] ++ encodeBody27 x) = .ok x := by
  have h62 : valBase 256 x < 62 ^ 27 := by
    calc valBase 256 x < 2 ^ 160 := hv
      _ ≤ 62 ^ 27 := by norm_num
  have hmod : valBase 256 x % 62 ^ 27 = valBase 256 x := Nat.mod_eq_of_lt h62
  have hdig : ∀ d ∈ toDigitsBE 62 27 (valBase 256 x), d < 62 :=
    toDigitsBE_all_lt 62 27 _ h62
  have hmap : ([48, 48] ++ encodeBody27 x).map base62Value =
      0 :: 0 :: toDigitsBE 62 27 (valBase 256 x) := by
    have h1 : ([48, 48] : List Nat) ++ encodeBody27 x =
        48 :: 48 :: encodeBody27 x := by
      rw [List.cons_append, List.cons_append, List.nil_append]
    have h2 : base62Value 48 = 0 := rfl
    rw [h1, List.map_cons, List.map_cons, h2]
    unfold encodeBody27
    rw [hmod, map_value_map_char _ hdig]
  have hval : valBase 62 (([48, 48] ++ encodeBody27 x).map base62Value) =
      valBase 256 x := by
    rw [hmap, valBase_cons, valBase_cons, valBase_toDigitsBE 62 27 _ h62]
    simp
  have hfinal := fastDecodeBase62_eq ([48, 48] ++ encodeBody27 x)
  rw [hval, if_pos hv] at hfinal
  rw [hfinal, ← hlen, toDigitsBE_valBase 256 x hlt]

/-- `Parse` on any input whose prefix split yields a spacer-plus-body
tail encoding a well-formed 21-byte payload. -/
theorem Parse_eq_of_split (b e r : List Nat) (x : List Nat)
    (hsplit : splitPrefixID b = (e, r, [48, 48] ++ encodeBody27 x))
    (hlen : x.length = 21) (hlt : ∀ c ∈ x, c < 256)
    (hv : valBase 256 x < 2 ^ 160) :
    Parse b =
      match ParseInstanceID ((x.drop 8).take 9) with
      | .error e' => .error e'
      | .ok iid =>
        .ok ⟨(if e = [] then Production else e), r,
             instantOfUnix (toIntOfUInt64 (valBase 256 (x.take 8))),
             some iid, valBase 256 (x.drop 17)⟩ := by
  have hblen : ([48, 48] ++ encodeBody27 x).length = 29 := by
    simp [length_encodeBody27]
  unfold Parse
  rw [hsplit]
  dsimp only
  rw [hblen, if_neg (by norm_num), if_neg (by norm_num),
    decode_spacer_body x hlen hlt hv]

/-- `Parse_eq_of_split` specialised to a successful instance-id parse. -/
theorem Parse_eq_of_split_ok (b e r x : List Nat) (iid : InstanceKind)
    (hsplit : splitPrefixID b = (e, r, [48, 48] ++ encodeBody27 x))
    (hlen : x.length = 21) (hlt : ∀ c ∈ x, c < 256)
    (hv : valBase 256 x < 2 ^ 160)
    (hok : ParseInstanceID ((x.drop 8).take 9) = .ok iid) :
    Parse b =
      .ok ⟨(if e = [] then Production else e), r,
           instantOfUnix (toIntOfUInt64 (valBase 256 (x.take 8))),
           some iid, valBase 256 (x.drop 17)⟩ := by
  rw [Parse_eq_of_split b e r x hsplit hlen hlt hv, hok]

/-- `ID.Bytes` of an id with a present instance identity. -/
theorem Bytes_eq (id : ID) (iid : InstanceKind) (h : id.InstanceID = some iid) :
    id.Bytes = some (id.prefixBytes ++ ([48, 48] ++ encodeBody27 (id.payload iid))) := by
  unfold ID.Bytes
  rw [h]
  simp [List.append_assoc]

/-- Round trip: parsing the textual encoding of a valid Identifier Value
reproduces it exactly. -/
theorem Parse_Bytes (id : ID) (h : ValidID id) :
    ∃ b, id.Bytes = some b ∧ Parse b = .ok id := by
  obtain ⟨⟨iid, hiid, hwf⟩, henv, henv95, hres95, hresenv, hsec0, hsec, hnsec,
    hutc, hseq⟩ := h
  refine ⟨id.prefixBytes ++ ([48, 48] ++ encodeBody27 (id.payload iid)),
    Bytes_eq id iid hiid, ?_⟩
  have hplen := payload_length id iid hwf
  have hplt := payload_lt id iid hwf
  have hpv := payload_val_lt id iid hwf hsec0 hsec
  have hsplit : splitPrefixID (id.prefixBytes ++
      ([48, 48] ++ encodeBody27 (id.payload iid))) =
      ((if id.Environment = Production then [] else id.Environment),
        id.Resource, [48, 48] ++ encodeBody27 (id.payload iid)) := by
    unfold ID.prefixBytes
    by_cases hres : id.Resource = []
    · rw [if_neg (by simp [hres]), List.nil_append,
        splitPrefixID_no_underscore _ (not_mem_95_body _),
        if_pos (hresenv hres), hres]
    · rw [if_pos hres]
      by_cases hprod : id.Environment = Production
      · rw [if_neg (by simp [hprod]), List.nil_append, if_pos hprod]
        have hshape : (id.Resource ++ [95]) ++
            ([48, 48] ++ encodeBody27 (id.payload iid)) =
            id.Resource ++ 95 :: ([48, 48] ++ encodeBody27 (id.payload iid)) := by
          simp
        rw [hshape, splitPrefixID_split _ _ (not_mem_95_body _),
          indexByte_not_mem _ _ hres95]
      · rw [if_pos ⟨henv, hprod⟩, if_neg hprod]
        have hshape : ((id.Environment ++ [95]) ++ id.Resource ++ [95]) ++
            ([48, 48] ++ encodeBody27 (id.payload iid)) =
            (id.Environment ++ 95 :: id.Resource) ++
              95 :: ([48, 48] ++ encodeBody27 (id.payload iid)) := by
          simp
        rw [hshape, splitPrefixID_split _ _ (not_mem_95_body _),
          indexByte_append _ _ _ henv95]
        show (_, _, _) = _
        rw [List.take_left' rfl]
        have hdrop : (id.Environment ++ 95 :: id.Resource).drop
            (id.Environment.length + 1) = id.Resource := by
          rw [← List.drop_drop, List.drop_left]
          rfl
        rw [hdrop]
  have hok : ParseInstanceID (((id.payload iid).drop 8).take 9) = .ok iid := by
    rw [payload_drop8_take9 id iid hwf]
    exact ParseInstanceID_bytes iid hwf
  rw [Parse_eq_of_split_ok _ _ _ _ iid hsplit hplen hplt hpv hok]
  rw [payload_take8, payload_drop17 id iid hwf]
  have hts : valBase 256 (toDigitsBE 256 8 (toUInt64OfInt id.Timestamp.sec)) =
      toUInt64OfInt id.Timestamp.sec := by
    apply valBase_toDigitsBE
    calc toUInt64OfInt id.Timestamp.sec < 2 ^ 64 := toUInt64OfInt_lt _
      _ ≤ 256 ^ 8 := by norm_num
  have hseqv : valBase 256 (toDigitsBE 256 4 (id.SequenceID % 2 ^ 32)) =
      id.SequenceID := by
    rw [Nat.mod_eq_of_lt hseq]
    apply valBase_toDigitsBE
    calc id.SequenceID < 2 ^ 32 := hseq
      _ ≤ 256 ^ 4 := by norm_num
  rw [hts, hseqv, toIntOfUInt64_toUInt64 _ hsec0 (by
    calc id.Timestamp.sec < 2 ^ 56 := hsec
      _ ≤ 2 ^ 63 := by norm_num)]
  have henvcase : (if (if id.Environment = Production then []
      else id.Environment) = [] then Production else
      (if id.Environment = Production then [] else id.Environment)) =
      id.Environment := by
    by_cases hprod : id.Environment = Production
    · rw [if_pos hprod, if_pos rfl, hprod]
    · rw [if_neg hprod, if_neg henv]
  rw [henvcase]
  have htseq : instantOfUnix id.Timestamp.sec = id.Timestamp := by
    unfold instantOfUnix
    cases hts' : id.Timestamp with
    | mk s n u =>
      rw [hts'] at hnsec hutc
      simp at hnsec hutc
      simp [hnsec, hutc]
  rw [htseq, ← hiid]

/-! ### `Parse` inversion, prefix length, generator and set lemmas -/

theorem map_char_map_value (l : List Nat) (h : ∀ c ∈ l, IsBase62Char c) :
    (l.map base62Value).map base62Char = l := by
  rw [List.map_map]
  apply List.map_congr_left ?_ |>.trans l.map_id
  intro c hc
  exact base62Char_base62Value c (h c hc)

/-- Inversion of a successful `Parse`: the produced environment and
resource come from the prefix split (with the production default), and
the timestamp is always a second-resolution UTC instant. -/
theorem Parse_ok_fields (s : List Nat) (id' : ID) (h : Parse s = .ok id') :
    id'.Environment = (if (splitPrefixID s).1 = [] then Production
      else (splitPrefixID s).1) ∧
    id'.Resource = (splitPrefixID s).2.1 ∧
    id'.Timestamp.nsec = 0 ∧ id'.Timestamp.isUTC = true := by
  unfold Parse at h
  split_ifs at h with hlt hgt henv
  all_goals split at h
  any_goals exact Except.noConfusion h
  all_goals split at h
  any_goals exact Except.noConfusion h
  all_goals
    have hinj := Except.ok.inj h
    subst hinj
  · exact ⟨by rw [if_pos henv], rfl, rfl, rfl⟩
  · exact ⟨by rw [if_neg henv], rfl, rfl, rfl⟩

theorem prefixBytes_length (id : ID) : id.prefixBytes.length = id.prefixLen := by
  unfold ID.prefixBytes ID.prefixLen
  split_ifs <;> simp
  omega

/-! Generator: the single-step behaviour of `Node.Generate`. -/

/-- Lexicographic order on instants (the order of the underlying
timeline for well-formed nanosecond fields). -/
def instantLe (a b : Instant) : Prop :=
  a.sec < b.sec ∨ (a.sec = b.sec ∧ a.nsec ≤ b.nsec)

theorem Generate_adopt (n : Node) (res : List Nat) (now : Instant)
    (h : instantSub now.utc n.ts > 1000000000) :
    (n.Generate res now).1.ts = now.utc ∧ (n.Generate res now).1.seq = 0 ∧
      (n.Generate res now).2.Timestamp = now.utc ∧
      (n.Generate res now).2.SequenceID = 0 := by
  unfold Node.Generate
  rw [if_pos h]
  exact ⟨rfl, rfl, rfl, rfl⟩

theorem Generate_keep (n : Node) (res : List Nat) (now : Instant)
    (h : ¬ instantSub now.utc n.ts > 1000000000) :
    (n.Generate res now).1.ts = n.ts ∧
      (n.Generate res now).1.seq = (n.seq + 1) % 2 ^ 32 ∧
      (n.Generate res now).2.Timestamp = n.ts ∧
      (n.Generate res now).2.SequenceID = (n.seq + 1) % 2 ^ 32 := by
  unfold Node.Generate
  rw [if_neg h]
  exact ⟨rfl, rfl, rfl, rfl⟩

theorem Generate_monotone (n : Node) (res : List Nat) (now : Instant)
    (hn0 : 0 ≤ n.ts.nsec) (hw1 : now.nsec < 1000000000) :
    instantLe n.ts (n.Generate res now).1.ts := by
  by_cases h : instantSub now.utc n.ts > 1000000000
  · rw [(Generate_adopt n res now h).1]
    left
    have h' : (now.sec - n.ts.sec) * 1000000000 + (now.nsec - n.ts.nsec) >
        1000000000 := h
    show n.ts.sec < now.sec
    omega
  · rw [(Generate_keep n res now h).1]
    right
    exact ⟨rfl, Int.le_refl _⟩

/-! Identifier set: invariant and reachability. -/

/-- The Set invariant claimed by the spec: every item is a key of the
lookup map, and every key occurs exactly once in the item sequence. -/
def SetInv (s : IDSet) : Prop :=
  (∀ x ∈ s.items, x ∈ s.lookup) ∧ (∀ x ∈ s.lookup, s.items.count x = 1)

instance (s : IDSet) : Decidable (SetInv s) := by
  unfold SetInv
  infer_instance

/-- States reachable through the Set API under the side conditions that
make `Delete` coherent: the initial list is duplicate-free, and deletion
is only applied to ids on which `ID.Equal` agrees with structural
equality across the current elements. -/
inductive ReachableSet : IDSet → Prop where
  | new (l : List ID) (h : l.Nodup) : ReachableSet (NewSet l)
  | app (s : IDSet) (id : ID) (h : ReachableSet s) : ReachableSet (s.append id).1
  | del (s : IDSet) (id : ID) (h : ReachableSet s)
      (heq : ∀ x ∈ s.items, x.Equal id = true ↔ x = id) :
      ReachableSet (s.delete id)

theorem mem_foldl_insert (l : List ID) : ∀ (m : Finset ID) (x : ID),
    x ∈ l.foldl (fun m id => insert id m) m ↔ x ∈ m ∨ x ∈ l := by
  induction l with
  | nil => intro m x; simp
  | cons a t ih =>
    intro m x
    simp only [List.foldl_cons, ih, Finset.mem_insert, List.mem_cons]
    tauto

theorem mem_NewSet_lookup (l : List ID) (x : ID) :
    x ∈ (NewSet l).lookup ↔ x ∈ l := by
  unfold NewSet
  rw [mem_foldl_insert]
  simp

theorem eraseP_eq_erase (l : List ID) (a : ID) (p : ID → Bool)
    (h : ∀ x ∈ l, p x = true ↔ x = a) : l.eraseP p = l.erase a := by
  induction l with
  | nil => rfl
  | cons b t ih =>
    by_cases hb : p b = true
    · have hba : b = a := (h b (by simp)).mp hb
      rw [List.eraseP_cons_of_pos hb, hba, List.erase_cons_head]
    · have hba : b ≠ a := fun hc => hb ((h b (by simp)).mpr hc)
      rw [List.eraseP_cons_of_neg (by simpa using hb),
        List.erase_cons_tail (by simp [hba]),
        ih (fun x hx => h x (by simp [hx]))]

theorem SetInv_NewSet (l : List ID) (h : l.Nodup) : SetInv (NewSet l) := by
  constructor
  · intro x hx
    rw [mem_NewSet_lookup]
    exact hx
  · intro x hx
    rw [mem_NewSet_lookup] at hx
    exact List.count_eq_one_of_mem h hx

theorem SetInv_append (s : IDSet) (id : ID) (h : SetInv s) :
    SetInv (s.append id).1 := by
  obtain ⟨h1, h2⟩ := h
  unfold IDSet.append
  by_cases hmem : id ∈ s.lookup
  · rw [if_pos hmem]
    exact ⟨h1, h2⟩
  · rw [if_neg hmem]
    constructor
    · intro x hx
      simp only [List.mem_append, List.mem_singleton] at hx
      rcases hx with hx | hx
      · exact Finset.mem_insert_of_mem (h1 x hx)
      · rw [hx]
        exact Finset.mem_insert_self id _
    · intro x hx
      rcases Finset.mem_insert.mp hx with hx | hx
      · subst hx
        have hidnot : x ∉ s.items := fun hc => hmem (h1 x hc)
        rw [List.count_append]
        rw [List.count_eq_zero.mpr hidnot]
        simp
      · have hxid : x ≠ id := fun hc => hmem (hc ▸ hx)
        rw [List.count_append, h2 x hx]
        simp [List.count_singleton', hxid]

theorem SetInv_delete (s : IDSet) (id : ID) (h : SetInv s)
    (heq : ∀ x ∈ s.items, x.Equal id = true ↔ x = id) :
    SetInv (s.delete id) := by
  obtain ⟨h1, h2⟩ := h
  unfold IDSet.delete
  rw [eraseP_eq_erase s.items id _ heq]
  by_cases hmem : id ∈ s.items
  · constructor
    · intro x hx
      have hxs : x ∈ s.items := (s.items.erase_sublist id).mem hx
      have hxlk := h1 x hxs
      rcases eq_or_ne x id with hxe | hxe
      · subst hxe
        exfalso
        have hcount := h2 x hxlk
        have := List.count_erase_self x s.items
        have hmemerase : x ∈ s.items.erase x := hx
        have := List.count_pos_iff.mpr hmemerase
        omega
      · exact Finset.mem_erase.mpr ⟨hxe, hxlk⟩
    · intro x hx
      obtain ⟨hxne, hxlk⟩ := Finset.mem_erase.mp hx
      rw [List.count_erase_of_ne hxne]
      exact h2 x hxlk
  · have herase : s.items.erase id = s.items := List.erase_of_not_mem hmem
    have hlk : id ∉ s.lookup := by
      intro hc
      have := h2 id hc
      have := List.count_pos_iff.mp (by omega : 0 < s.items.count id)
      exact hmem this
    have hfin : s.lookup.erase id = s.lookup := Finset.erase_eq_of_not_mem hlk
    rw [herase, hfin]
    exact ⟨h1, h2⟩

theorem SetInv_reachable (s : IDSet) (h : ReachableSet s) : SetInv s := by
  induction h with
  | new l hl => exact SetInv_NewSet l hl
  | app s id _ ih => exact SetInv_append s id ih
  | del s id _ heq ih => exact SetInv_delete s id ih heq

/-! ### Claim theorems -/

/-- C1 (amended): base-62 codec round-trip holds exactly on the sub-range
the decoder's chunked writer can fill — values below `2^160`
(equivalently 21-byte payloads with a zero leading byte): for such `b`,
`Decode(Encode(b)) = b`; for every syntactically valid (alphabet-only)
29-character `s` that decodes successfully, `Encode(Decode(s)) = s`; and
every 21-byte payload with value at least `2^160` makes
`Decode(Encode(b))` fail with the output-buffer-too-short error instead
of round-tripping. -/
theorem C1_base62_roundtrip :
    (∀ b : List Nat, b.length = 21 → (∀ c ∈ b, c < 256) →
      valBase 256 b < 2 ^ 160 →
      fastDecodeBase62 (encodeBase62 b) = .ok b) ∧
    (∀ s : List Nat, s.length = 29 → (∀ c ∈ s, IsBase62Char c) →
      ∀ d, fastDecodeBase62 s = .ok d → encodeBase62 d = s) ∧
    (∀ b : List Nat, b.length = 21 → (∀ c ∈ b, c < 256) →
      2 ^ 160 ≤ valBase 256 b →
      fastDecodeBase62 (encodeBase62 b) =
        .error ⟨"output buffer too short"⟩) := by
  have hvenc : ∀ b : List Nat, b.length = 21 → (∀ c ∈ b, c < 256) →
      valBase 62 ((encodeBase62 b).map base62Value) = valBase 256 b := by
    intro b hlen hlt
    have hb : valBase 256 b < 62 ^ 29 := by
      calc valBase 256 b < 256 ^ b.length := valBase_lt_pow 256 b hlt
        _ = 256 ^ 21 := by rw [hlen]
        _ ≤ 62 ^ 29 := by norm_num
    unfold encodeBase62
    rw [map_value_map_char _ (toDigitsBE_all_lt 62 29 _ hb),
      valBase_toDigitsBE 62 29 _ hb]
  refine ⟨?_, ?_, ?_⟩
  · intro b hlen hlt hv
    have hfinal := fastDecodeBase62_eq (encodeBase62 b)
    rw [hvenc b hlen hlt, if_pos hv] at hfinal
    rw [hfinal, ← hlen, toDigitsBE_valBase 256 b hlt]
  · intro s hlen halpha d hd
    have hfinal := fastDecodeBase62_eq s
    by_cases hv : valBase 62 (s.map base62Value) < 2 ^ 160
    · rw [if_pos hv] at hfinal
      rw [hfinal] at hd
      have hdval := Except.ok.inj hd
      subst hdval
      have hv168 : valBase 62 (s.map base62Value) < 256 ^ 21 := by
        calc valBase 62 (s.map base62Value) < 2 ^ 160 := hv
          _ ≤ 256 ^ 21 := by norm_num
      unfold encodeBase62
      rw [valBase_toDigitsBE 256 21 _ hv168]
      have hlen' : (s.map base62Value).length = 29 := by simp [hlen]
      have hdig : ∀ c ∈ s.map base62Value, c < 62 := by
        intro c hc
        obtain ⟨a, ha, hac⟩ := List.mem_map.mp hc
        rw [← hac]
        exact base62Value_lt a (halpha a ha)
      rw [← hlen', toDigitsBE_valBase 62 _ hdig,
        map_char_map_value s halpha]
    · rw [if_neg hv] at hfinal
      rw [hfinal] at hd
      exact Except.noConfusion hd
  · intro b hlen hlt hv
    have hfinal := fastDecodeBase62_eq (encodeBase62 b)
    rw [hvenc b hlen hlt, if_neg (by omega)] at hfinal
    exact hfinal

/-- C1 witness: the all-zero 21-byte payload round-trips. -/
theorem C1_witness :
    fastDecodeBase62 (encodeBase62 (List.replicate 21 0)) =
      .ok (List.replicate 21 0) :=
  C1_base62_roundtrip.1 (List.replicate 21 0) (by decide) (by decide) (by decide)

/-- C1 counterexample: the 21-byte payload with value `2^160` (leading
byte 1) does not round-trip — its encoding decodes to the
output-buffer-too-short error, not to the payload. -/
theorem C1_counterexample :
    fastDecodeBase62 (encodeBase62 overflowPayload) =
        .error ⟨"output buffer too short"⟩ ∧
      fastDecodeBase62 (encodeBase62 overflowPayload) ≠ .ok overflowPayload ∧
      overflowPayload.length = 21 := by
  refine ⟨by decide, by decide, by decide⟩

/-- C5 (amended): for every 29-character input, the decoder fails with
the output-buffer-too-short error exactly when the base-62 value of the
input is at least `2^160` (i.e. needs more than 20 bytes, not 21), and
otherwise succeeds with the 21-byte big-endian encoding of that value —
so the overflow check is the only validity check, and bytes outside the
alphabet are never rejected as such (they merely contribute their
wrapped digit value). -/
theorem C5_decode_overflow : ∀ src : List Nat, src.length = 29 →
    (fastDecodeBase62 src = .error ⟨"output buffer too short"⟩ ↔
      2 ^ 160 ≤ valBase 62 (src.map base62Value)) ∧
    (valBase 62 (src.map base62Value) < 2 ^ 160 →
      fastDecodeBase62 src =
        .ok (toDigitsBE 256 21 (valBase 62 (src.map base62Value)))) := by
  intro src _
  have hfinal := fastDecodeBase62_eq src
  constructor
  · constructor
    · intro herr
      by_contra hlt
      rw [if_pos (by omega)] at hfinal
      rw [hfinal] at herr
      exact Except.noConfusion herr
    · intro hge
      rw [if_neg (by omega)] at hfinal
      exact hfinal
  · intro hlt
    rw [if_pos hlt] at hfinal
    exact hfinal

/-- C5 witness: a 29-character input ending in `'='` — a byte outside
the base-62 alphabet — is not rejected: its wrapped value is below
`2^160`, so decoding succeeds. -/
theorem C5_witness :
    invalidCharStr.length = 29 ∧
      ¬ (fastDecodeBase62 invalidCharStr =
          .error ⟨"output buffer too short"⟩) ∧
      fastDecodeBase62 invalidCharStr =
        .ok (toDigitsBE 256 21 (valBase 62 (invalidCharStr.map base62Value))) := by
  have h := C5_decode_overflow invalidCharStr (by decide)
  refine ⟨by decide, ?_, h.2 (by decide)⟩
  intro herr
  have := h.1.mp herr
  revert this
  decide

/-- C5 counterexample: the 29-character text with value exactly `2^160`
fails with the output-buffer-too-short error although its value fits in
21 bytes (`2^160 < 2^168`), so the failure threshold is 20 bytes, not
21. -/
theorem C5_counterexample :
    fastDecodeBase62 s160 = .error ⟨"output buffer too short"⟩ ∧
      valBase 62 (s160.map base62Value) = 2 ^ 160 ∧
      valBase 62 (s160.map base62Value) < 2 ^ 168 ∧
      s160.length = 29 := by
  refine ⟨by decide, by decide, by decide, by decide⟩

/-- C2 (amended): identifier round-trip — for every valid Identifier
Value (present well-formed instance identity, non-empty underscore-free
environment, underscore-free resource, production environment whenever
the resource is empty, second-resolution UTC timestamp in the encodable
range, 32-bit sequence), parsing its textual encoding reproduces every
field exactly. -/
theorem C2_parse_roundtrip (id : ID) (h : ValidID id) :
    ∃ b, id.Bytes = some b ∧ Parse b = .ok id :=
  Parse_Bytes id h

/-- C2 witness: the repository's own test vector
`user_000000BPG6Lks9tQoAiJYrBRSXPX6` round-trips. -/
theorem C2_witness : ∃ b, exID.Bytes = some b ∧ Parse b = .ok exID :=
  C2_parse_roundtrip exID
    ⟨⟨exHW, rfl, by decide, by decide, by decide⟩, by decide, by decide,
     by decide, fun hc => absurd hc (by decide), by decide, by decide,
     rfl, rfl, by decide⟩

/-- C2 counterexample: a Generate-produced Identifier Value with a
non-production environment and an empty resource does not round-trip —
the environment is not written (the empty resource suppresses the whole
prefix) and `Parse` returns the production sentinel instead. -/
theorem C2_counterexample :
    exGenID = (exNode.Generate [] exNow).2 ∧
      exGenID.Environment = [116, 101, 115, 116] ∧
      exGenID.Bytes = some exGenBytes ∧
      Parse exGenBytes = .ok exGenParsed ∧
      exGenParsed.Environment = Production ∧
      exGenParsed ≠ exGenID := by
  refine ⟨rfl, by decide, by decide, by decide, rfl, by decide⟩

/-- C3: one `Generate` step under the lock — when the (UTC-normalized)
clock reading is more than one second past the recorded timestamp the
node adopts it and resets the sequence to 0; otherwise the recorded
timestamp is kept and the sequence incremented by one (`uint32`
arithmetic); the recorded timestamp never decreases; and in the
keep-branch, absent 32-bit wrap-around, the issued sequence is exactly
the previous value plus one with an unchanged timestamp. -/
theorem C3_generate_step (n : Node) (res : List Nat) (now : Instant)
    (hn0 : 0 ≤ n.ts.nsec) (hw1 : now.nsec < 1000000000) :
    (instantSub now.utc n.ts > 1000000000 →
      (n.Generate res now).1.ts = now.utc ∧ (n.Generate res now).1.seq = 0 ∧
      (n.Generate res now).2.Timestamp = now.utc ∧
      (n.Generate res now).2.SequenceID = 0) ∧
    (instantSub now.utc n.ts ≤ 1000000000 →
      (n.Generate res now).1.ts = n.ts ∧
      (n.Generate res now).1.seq = (n.seq + 1) % 2 ^ 32 ∧
      (n.Generate res now).2.Timestamp = n.ts ∧
      (n.Generate res now).2.SequenceID = (n.seq + 1) % 2 ^ 32) ∧
    instantLe n.ts (n.Generate res now).1.ts ∧
    (instantSub now.utc n.ts ≤ 1000000000 → n.seq + 1 < 2 ^ 32 →
      (n.Generate res now).2.SequenceID = n.seq + 1 ∧
      n.seq < (n.Generate res now).2.SequenceID ∧
      (n.Generate res now).2.Timestamp = n.ts) := by
  refine ⟨Generate_adopt n res now, ?_, Generate_monotone n res now hn0 hw1, ?_⟩
  · intro hle
    exact Generate_keep n res now (by omega)
  · intro hle hwrap
    obtain ⟨_, _, hts, hseq⟩ := Generate_keep n res now (by omega)
    refine ⟨?_, ?_, hts⟩
    · rw [hseq, Nat.mod_eq_of_lt hwrap]
    · rw [hseq, Nat.mod_eq_of_lt hwrap]
      omega

/-- C3 witness: a same-second call increments the sequence with an
unchanged timestamp. -/
theorem C3_witness :
    (exNode.Generate [101] ⟨5, 500, false⟩).2.SequenceID = exNode.seq + 1 ∧
      exNode.seq < (exNode.Generate [101] ⟨5, 500, false⟩).2.SequenceID ∧
      (exNode.Generate [101] ⟨5, 500, false⟩).2.Timestamp = exNode.ts :=
  (C3_generate_step exNode [101] ⟨5, 500, false⟩ (by decide) (by decide)).2.2.2
    (by decide) (by decide)
/-- C4: the prefix-splitting grammar of `Parse` — an input with no
underscore splits to empty prefix fields with the whole input as body;
an input with underscores splits at the last one, and the raw prefix
splits at its own first underscore into environment and resource when it
has one, otherwise the whole raw prefix is the resource; an input that
begins with an underscore yields an empty resource; and on every
successful parse, an empty split environment defaults to the production
sentinel, while a non-empty split environment and the split resource are
taken verbatim. -/
theorem C4_prefix_grammar :
    (∀ s : List Nat, 95 ∉ s → splitPrefixID s = ([], [], s)) ∧
    (∀ pre body : List Nat, 95 ∉ body →
      splitPrefixID (pre ++ 95 :: body) =
        match indexByte pre 95 with
        | some j => (pre.take j, pre.drop (j + 1), body)
        | none => ([], pre, body)) ∧
    (∀ body : List Nat, 95 ∉ body →
      splitPrefixID (95 :: body) = ([], [], body)) ∧
    (∀ (s : List Nat) (id' : ID), Parse s = .ok id' →
      id'.Environment = (if (splitPrefixID s).1 = [] then Production
        else (splitPrefixID s).1) ∧
      id'.Resource = (splitPrefixID s).2.1) := by
  refine ⟨splitPrefixID_no_underscore, splitPrefixID_split, ?_, ?_⟩
  · intro body hb
    have h := splitPrefixID_split [] body hb
    rw [List.nil_append] at h
    exact h
  · intro s id' h
    exact ⟨(Parse_ok_fields s id' h).1, (Parse_ok_fields s id' h).2.1⟩

/-- C4 witness: the splitting rules at the repository's own test
vectors (`test_user_A`, `_A`, bare). -/
theorem C4_witness :
    splitPrefixID [65, 66] = ([], [], [65, 66]) ∧
      splitPrefixID ([116, 101, 115, 116, 95, 117, 115, 101, 114] ++
          95 :: [65]) =
        ([116, 101, 115, 116], [117, 115, 101, 114], [65]) ∧
      splitPrefixID (95 :: [65]) = ([], [], [65]) := by
  refine ⟨C4_prefix_grammar.1 [65, 66] (by decide), ?_, C4_prefix_grammar.2.2.1 [65] (by decide)⟩
  have h := C4_prefix_grammar.2.1 [116, 101, 115, 116, 95, 117, 115, 101, 114]
    [65] (by decide)
  rw [h]
  decide

/-- C6: layout of the encoded text — for every id with a present
instance identity, `Bytes` yields prefix bytes, then the two literal
`'0'` spacer characters, then the 27-character base-62 body; total
length is `prefixLen + 29`, where `prefixLen` is 0 for an empty
resource and otherwise `len(resource)+1` plus `len(environment)+1`
exactly when the environment is non-empty and differs from the
production sentinel. -/
theorem C6_layout (id : ID) (iid : InstanceKind)
    (h : id.InstanceID = some iid) :
    ∃ b body, id.Bytes = some b ∧
      b = id.prefixBytes ++ [48, 48] ++ body ∧ body.length = 27 ∧
      b.length = id.prefixLen + 29 ∧
      b[id.prefixLen]? = some 48 ∧
      b[id.prefixLen + 1]? = some 48 ∧
      id.prefixLen = (if id.Resource = [] then 0
        else id.Resource.length + 1 +
          (if id.Environment ≠ [] ∧ id.Environment ≠ Production then
            id.Environment.length + 1
          else 0)) := by
  refine ⟨id.prefixBytes ++ ([48, 48] ++ encodeBody27 (id.payload iid)),
    encodeBody27 (id.payload iid), Bytes_eq id iid h, by simp,
    length_encodeBody27 _, ?_, ?_, ?_, ?_⟩
  · simp [prefixBytes_length, length_encodeBody27]
  · rw [← prefixBytes_length id,
      List.getElem?_append_right (Nat.le_refl _), Nat.sub_self]
    simp only [List.cons_append, List.nil_append, List.getElem?_cons_zero]
  · rw [← prefixBytes_length id, List.getElem?_append_right (by omega)]
    have h1 : id.prefixBytes.length + 1 - id.prefixBytes.length = 1 := by omega
    rw [h1]
    simp only [List.cons_append, List.nil_append, List.getElem?_cons_succ,
      List.getElem?_cons_zero]
  · unfold ID.prefixLen
    by_cases hres : id.Resource = []
    · rw [if_neg (by simp [hres]), if_pos hres]
    · rw [if_pos hres, if_neg hres]

/-- C6 witness: the layout at the repository's pinned test id. -/
theorem C6_witness :
    ∃ b body, exID.Bytes = some b ∧
      b = exID.prefixBytes ++ [48, 48] ++ body ∧ body.length = 27 ∧
      b.length = exID.prefixLen + 29 ∧
      b[exID.prefixLen]? = some 48 ∧
      b[exID.prefixLen + 1]? = some 48 ∧
      exID.prefixLen = (if exID.Resource = [] then 0
        else exID.Resource.length + 1 +
          (if exID.Environment ≠ [] ∧ exID.Environment ≠ Production then
            exID.Environment.length + 1
          else 0)) :=
  C6_layout exID exHW rfl

/-- C7 (amended): `Parse` always constructs a second-resolution
(UTC-normalized, zero sub-second) timestamp; `Node.Generate` normalizes
the clock reading to UTC (and keeps a UTC recorded timestamp UTC), but
retains the clock's sub-second precision instead of truncating to whole
seconds — the issued timestamp is either the UTC-normalized clock
reading or the previously recorded timestamp. -/
theorem C7_timestamp_normalization :
    (∀ (s : List Nat) (id' : ID), Parse s = .ok id' →
      id'.Timestamp.nsec = 0 ∧ id'.Timestamp.isUTC = true) ∧
    (∀ (n : Node) (res : List Nat) (now : Instant),
      ((n.Generate res now).2.Timestamp = now.utc ∨
        (n.Generate res now).2.Timestamp = n.ts) ∧
      (n.ts.isUTC = true → (n.Generate res now).2.Timestamp.isUTC = true)) := by
  constructor
  · intro s id' h
    exact ⟨(Parse_ok_fields s id' h).2.2.1, (Parse_ok_fields s id' h).2.2.2⟩
  · intro n res now
    by_cases h : instantSub now.utc n.ts > 1000000000
    · obtain ⟨_, _, hts, _⟩ := Generate_adopt n res now h
      exact ⟨Or.inl hts, fun _ => by rw [hts]; rfl⟩
    · obtain ⟨_, _, hts, _⟩ := Generate_keep n res now h
      exact ⟨Or.inr hts, fun hu => by rw [hts]; exact hu⟩

/-- C7 witness: a concrete successful parse has a zero sub-second UTC
timestamp. -/
theorem C7_witness :
    exGenParsed.Timestamp.nsec = 0 ∧ exGenParsed.Timestamp.isUTC = true :=
  C7_timestamp_normalization.1 exGenBytes exGenParsed (by decide)

/-- C7 counterexample: a `Generate` call that adopts a clock reading
with a 5 ns sub-second component issues a timestamp whose sub-second
component is 5, not 0 — the code does not truncate to second
resolution. -/
theorem C7_counterexample :
    (exNode.Generate [101] exNowSub).2.Timestamp.nsec = 5 ∧
      (exNode.Generate [101] exNowSub).2.Timestamp.nsec ≠ 0 := by
  exact ⟨by decide, by decide⟩

/-- C8 (amended): the Set invariant — every item is a key of the
membership index and every key occurs exactly once in the item sequence —
holds for every Set reachable via `NewSet` on a duplicate-free initial
list, `Append`, and `Delete` restricted to ids on which `ID.Equal`
agrees with structural equality across the current items (in particular
ids and elements with present instance identities); `Append` and
`Delete` preserve the relative order of the remaining elements. -/
theorem C8_set_invariant :
    (∀ s : IDSet, ReachableSet s → SetInv s) ∧
    (∀ (s : IDSet) (id : ID), (s.append id).1.items = s.items ∨
      (s.append id).1.items = s.items ++ [id]) ∧
    (∀ (s : IDSet) (id : ID), (s.delete id).items.Sublist s.items) := by
  refine ⟨SetInv_reachable, ?_, ?_⟩
  · intro s id
    unfold IDSet.append
    by_cases hmem : id ∈ s.lookup
    · rw [if_pos hmem]
      exact Or.inl rfl
    · rw [if_neg hmem]
      exact Or.inr rfl
  · intro s id
    exact List.eraseP_sublist s.items

/-- C8 witness: inserting and then deleting a well-formed id through the
API leaves the invariant intact. -/
theorem C8_witness : SetInv ((NewSet [exID]).delete exID) :=
  C8_set_invariant.1 _
    (ReachableSet.del _ exID (ReachableSet.new [exID] (by decide)) (by decide))

/-- C8 counterexample: the zero id (absent instance identity) breaks
the invariant — `NewSet [zero]` then `Delete zero` removes the key from
the membership index but, since `Equal` is never true on absent-identity
values, leaves the element in the ordered sequence. -/
theorem C8_counterexample :
    ¬ SetInv ((NewSet [exZeroID]).delete exZeroID) ∧
      exZeroID ∈ ((NewSet [exZeroID]).delete exZeroID).items ∧
      exZeroID ∉ ((NewSet [exZeroID]).delete exZeroID).lookup := by
  refine ⟨by decide, by decide, by decide⟩

/-- C9: equality semantics — `Equal a b` holds exactly when both ids
carry a present instance identity and environment, resource, scheme tag,
fingerprint bytes, timestamp instant and sequence coincide; and an id
with an absent instance identity is `Equal` to nothing, in either
argument position, itself included. -/
theorem C9_equal_semantics :
    (∀ a b : ID, a.Equal b = true ↔
      ∃ ia ib, a.InstanceID = some ia ∧ b.InstanceID = some ib ∧
        a.Environment = b.Environment ∧ a.Resource = b.Resource ∧
        ia.scheme = ib.scheme ∧ ia.bytes = ib.bytes ∧
        instantEqual a.Timestamp b.Timestamp = true ∧
        a.SequenceID = b.SequenceID) ∧
    (∀ x y : ID, x.InstanceID = none →
      x.Equal y = false ∧ y.Equal x = false) := by
  constructor
  · intro a b
    unfold ID.Equal
    cases ha : a.InstanceID with
    | none =>
      simp only [Bool.false_eq_true, false_iff]
      rintro ⟨ia, ib, hia, _⟩
      exact Option.noConfusion hia
    | some ia =>
      cases hb : b.InstanceID with
      | none =>
        simp only [Bool.false_eq_true, false_iff]
        rintro ⟨ia', ib, _, hib, _⟩
        exact Option.noConfusion hib
      | some ib =>
        simp only [Bool.and_eq_true, beq_iff_eq]
        constructor
        · rintro ⟨⟨⟨⟨⟨henv, hres⟩, hsch⟩, hbts⟩, hts⟩, hseq⟩
          exact ⟨ia, ib, rfl, rfl, henv, hres, hsch, hbts, hts, hseq⟩
        · rintro ⟨ia', ib', hia, hib, henv, hres, hsch, hbts, hts, hseq⟩
          cases Option.some.inj hia
          cases Option.some.inj hib
          exact ⟨⟨⟨⟨⟨henv, hres⟩, hsch⟩, hbts⟩, hts⟩, hseq⟩
  · intro x y hx
    unfold ID.Equal
    rw [hx]
    constructor
    · rfl
    · cases y.InstanceID <;> rfl

/-- C9 witness: the zero id is not equal to itself nor to a
present-identity id, in either position. -/
theorem C9_witness :
    exZeroID.Equal exZeroID = false ∧ exZeroID.Equal exID = false ∧
      exID.Equal exZeroID = false :=
  ⟨(C9_equal_semantics.2 exZeroID exZeroID rfl).1,
   (C9_equal_semantics.2 exZeroID exID rfl).1,
   (C9_equal_semantics.2 exZeroID exID rfl).2⟩

/-- C10: the encoding operations require a present instance identity —
on an id whose instance identity is absent (the nil interface), `Bytes`,
`String`, `Value`, `MarshalJSON` and `GetBSON` all hit the nil-interface
method call (modelled as `none`, the panic) instead of returning a typed
error; with a present identity they all produce the encoded bytes. -/
theorem C10_encode_nil_identity (id : ID) :
    (id.InstanceID = none →
      id.Bytes = none ∧ id.String = none ∧ id.Value = none ∧
      id.MarshalJSON = none ∧ id.GetBSON = none) ∧
    (∀ iid, id.InstanceID = some iid →
      ∃ b, id.Bytes = some b ∧ id.String = some b ∧ id.Value = some b ∧
        id.MarshalJSON = some ([34] ++ b ++ [34]) ∧ id.GetBSON = some b) := by
  constructor
  · intro h
    have hb : id.Bytes = none := by
      unfold ID.Bytes
      rw [h]
    exact ⟨hb, hb, hb, by rw [ID.MarshalJSON, hb]; rfl, hb⟩
  · intro iid h
    refine ⟨id.prefixBytes ++ ([48, 48] ++ encodeBody27 (id.payload iid)),
      Bytes_eq id iid h, Bytes_eq id iid h, Bytes_eq id iid h, ?_, Bytes_eq id iid h⟩
    rw [ID.MarshalJSON, Bytes_eq id iid h]
    rfl

/-- C10 witness: the zero id (nil instance identity) yields `none` from
every encoder, and the pinned test id yields its bytes. -/
theorem C10_witness :
    exZeroID.Bytes = none ∧ exZeroID.String = none ∧
      exZeroID.MarshalJSON = none ∧
      ∃ b, exID.Bytes = some b ∧ exID.String = some b :=
  ⟨((C10_encode_nil_identity exZeroID).1 rfl).1,
   ((C10_encode_nil_identity exZeroID).1 rfl).2.1,
   ((C10_encode_nil_identity exZeroID).1 rfl).2.2.2.1,
   ((C10_encode_nil_identity exID).2 exHW rfl).elim
     (fun b hb => ⟨b, hb.1, hb.2.1⟩)⟩

end Ksuid


